import Mathlib

/-!
# Verification of the pwstore encrypted entry store

Shallow embedding of `pwstore.py`.  Strings are modelled as lists of Unicode
code points (`List Nat`); bytes are `Nat` values below 256.  The shelve
mapping is modelled as a `Store` structure: the reserved `'_serial'` key is
the `serial` field and every other key/value pair is an element of
`entries` (the code always excludes `'_serial'` from `keylist` via
`keylist.remove('_serial')` before touching entries, so the reserved key is
never matched, deleted or overwritten by the entry operations).
-/

namespace Pwstore

/-- Python `str.lower` restricted to the single-byte code-point domain used by
the store: ASCII `A`-`Z` and Latin-1 `À`-`Þ` (except `×`) shift by 32,
everything else (code points ≥ 256 never arise here) is unchanged. -/
def lowerChar (c : Nat) : Nat :=
  if (65 ≤ c ∧ c ≤ 90) ∨ (192 ≤ c ∧ c ≤ 222 ∧ c ≠ 215) then c + 32 else c

/-- `s.lower()` on a modelled string. -/
def lowerStr (s : List Nat) : List Nat := s.map lowerChar

/-- Whether `p` starts `s` (helper for the substring test). -/
def leadsIn : List Nat → List Nat → Bool
  | [], _ => true
  | _ :: _, [] => false
  | a :: as, b :: bs => a == b && leadsIn as bs

/-- Python's `p in s` on strings: `p` occurs in `s` as a contiguous
substring (the empty string occurs in everything). -/
def occursIn : List Nat → List Nat → Bool
  | p, [] => leadsIn p []
  | p, b :: t => leadsIn p (b :: t) || occursIn p t

/-- Character of the URL-safe base64 alphabet (`A-Za-z0-9-_`) for a 6-bit value. -/
def b64char (n : Nat) : Nat :=
  if n < 26 then 65 + n
  else if n < 52 then 97 + (n - 26)
  else if n < 62 then 48 + (n - 52)
  else if n = 62 then 45
  else 95

/-- Inverse of `b64char` on the URL-safe base64 alphabet. -/
def b64val (c : Nat) : Nat :=
  if 65 ≤ c ∧ c ≤ 90 then c - 65
  else if 97 ≤ c ∧ c ≤ 122 then c - 97 + 26
  else if 48 ≤ c ∧ c ≤ 57 then c - 48 + 52
  else if c = 45 then 62
  else 63

/-- `base64.urlsafe_b64encode` on a byte list (61 is the code of `'='`, the pad). -/
def b64encode : List Nat → List Nat
  | [] => []
  | [a] => [b64char (a / 4), b64char (a % 4 * 16), 61, 61]
  | [a, b] => [b64char (a / 4), b64char (a % 4 * 16 + b / 16), b64char (b % 16 * 4), 61]
  | a :: b :: c :: rest =>
      b64char (a / 4) :: b64char (a % 4 * 16 + b / 16) ::
        b64char (b % 16 * 4 + c / 64) :: b64char (c % 64) :: b64encode rest

/-- `base64.urlsafe_b64decode` on well-formed input (outputs of `b64encode`);
on malformed input Python raises, here junk is returned instead. -/
def b64decode : List Nat → List Nat
  | a :: b :: c :: d :: rest =>
      if c = 61 then [b64val a * 4 + b64val b / 16]
      else if d = 61 then [b64val a * 4 + b64val b / 16, b64val b % 16 * 16 + b64val c / 4]
      else (b64val a * 4 + b64val b / 16) :: (b64val b % 16 * 16 + b64val c / 4) ::
             (b64val c % 4 * 64 + b64val d) :: b64decode rest
  | _ => []

/-- UTF-8 bytes of one code point below 0x800 (all code points produced by the
cipher are below 256, so the one- and two-byte forms suffice). -/
def utf8Char (c : Nat) : List Nat :=
  if c < 128 then [c] else [192 + c / 64, 128 + c % 64]

/-- `str.encode()`: UTF-8 bytes of a modelled string. -/
def utf8Encodes : List Nat → List Nat
  | [] => []
  | c :: rest => utf8Char c ++ utf8Encodes rest

/-- `bytes.decode()` for the one- and two-byte UTF-8 forms; on input that is
not valid UTF-8 Python raises, here junk is returned instead. -/
def utf8Decodes : List Nat → List Nat
  | [] => []
  | [b] => if b < 128 then [b] else []
  | b :: b2 :: rest =>
      if b < 128 then b :: utf8Decodes (b2 :: rest)
      else ((b - 192) * 64 + (b2 - 128)) :: utf8Decodes rest

/-- `key[i % len(key)]` as a code point (`0` can never be read: every access
in scope has `i % len key < len key`). -/
def keyAt (key : List Nat) (i : Nat) : Nat := key.getD (i % key.length) 0

/-- The encoding loop of `pw_encode`, started at index `i`:
`chr((ord(clear[i]) + ord(key[i % len(key)])) % 256)` for each position. -/
def cipherAddFrom (key : List Nat) (i : Nat) : List Nat → List Nat
  | [] => []
  | c :: rest => (c + keyAt key i) % 256 :: cipherAddFrom key (i + 1) rest

/-- The decoding loop of `pw_decode`, started at index `i`:
`chr((256 + ord(enc[i]) - ord(key[i % len(key)])) % 256)` for each position
(computed over `Int` because Python's `%` wraps negatives upward). -/
def cipherSubFrom (key : List Nat) (i : Nat) : List Nat → List Nat
  | [] => []
  | e :: rest =>
      (((256 : Int) + e - keyAt key i) % 256).toNat :: cipherSubFrom key (i + 1) rest

/-- `pw_encode(key, clear)`: Vigenère-add, UTF-8 encode, URL-safe base64. -/
def pw_encode (key clear : List Nat) : List Nat :=
  b64encode (utf8Encodes (cipherAddFrom key 0 clear))

/-- `pw_decode(key, enc)`: URL-safe base64 decode, UTF-8 decode, Vigenère-subtract. -/
def pw_decode (key enc : List Nat) : List Nat :=
  cipherSubFrom key 0 (utf8Decodes (b64decode enc))

/-- Decimal digits of a natural number as code points, with explicit fuel so
the definition reduces in the kernel (the fuel `n + 1` always suffices). -/
def natStrAux : Nat → Nat → List Nat
  | _, 0 => []
  | n, fuel + 1 => if n < 10 then [48 + n] else natStrAux (n / 10) fuel ++ [48 + n % 10]

/-- `'{}'.format(n)` for a non-negative integer: its decimal digit string. -/
def natStr (n : Nat) : List Nat := natStrAux n (n + 1)

/-- Value of a decimal digit string; left inverse of `natStr`. -/
def natVal (l : List Nat) : Nat := l.foldl (fun a d => a * 10 + (d - 48)) 0

/-- One credential record.  All four string fields hold *encoded* bytes;
the two timestamps are plaintext (modelled as abstract `Nat` clock values). -/
structure Entry where
  context : List Nat
  username : List Nat
  password : List Nat
  note : List Nat
  date_added : Nat
  last_updated : Nat
deriving DecidableEq, Inhabited

/-- The shelve mapping: the reserved `'_serial'` key as the `serial` field,
every other key/value pair in `entries` (insertion-ordered association list;
shelve is a dict, so reachable stores have pairwise distinct keys). -/
structure Store where
  serial : Nat
  entries : List (List Nat × Entry)
deriving DecidableEq, Inhabited

/-- `'_{}_{}__'.format(context, username)` — the delimiter-framed
context/username pattern used by `add` (dup-check, address) and by
`remove`/`update` when a username is supplied (95 is `'_'`). -/
def ctxPattern (context username : List Nat) : List Nat :=
  [95] ++ context ++ [95] ++ username ++ [95, 95]

/-- `'{}_{}__'.format(serial, ctx)` with `ctx = '_{context}_{username}__'`:
the full plaintext storage address composed by `add`. -/
def composeAddr (serial : Nat) (context username : List Nat) : List Nat :=
  natStr serial ++ [95] ++ ctxPattern context username ++ [95, 95]

/-- Python `str(x)` on an optional string argument: `str(None)` is the
four-character string `"None"`. -/
def pyStrOpt (o : Option (List Nat)) : List Nat := o.getD [78, 111, 110, 101]

/-- Python truthiness of an optional string argument: `None` and the empty
string are falsy. -/
def truthy (o : Option (List Nat)) : Bool := !(o.getD []).isEmpty

/-- The probe `remove`/`update` build: `'_{context}_'`, replaced by the full
`'_{context}_{username}__'` pattern when `args.username` is truthy. -/
def probeOf (context : List Nat) (username : Option (List Nat)) : List Nat :=
  if truthy username then ctxPattern context (username.getD [])
  else [95] ++ context ++ [95]

/-- Result of `pws_add` (printed messages in the source). -/
inductive AddResult
  | duplicate
  | added (key : List Nat)
deriving DecidableEq

/-- Result of `pws_remove`. -/
inductive RemoveResult
  | notFound
  | ambiguous
  | removed (key : List Nat)
deriving DecidableEq

/-- Result of `pws_update`. -/
inductive UpdateResult
  | notFound
  | ambiguous
  | updated (key : List Nat)
deriving DecidableEq

/-- The matcher: every non-reserved storage key whose decoded address
contains the lowercased probe as a substring
(`ctx.lower() in pw_decode(MASTER, key).lower()`). -/
def keyMatches (master probe : List Nat) (st : Store) : List (List Nat) :=
  (st.entries.map Prod.fst).filter
    (fun key => occursIn (lowerStr probe) (lowerStr (pw_decode master key)))

/-- `pws_add`: duplicate-check on the framed pattern, then build the Entry
(password obtained from an external prompt), store it under the encoded
composed address, and advance the serial.  `note` is `args.note`
(`None` when the flag is absent); the code encodes `str(args.note)`. -/
def pws_add (master : List Nat) (st : Store) (context username : List Nat)
    (note : Option (List Nat)) (password : List Nat) (now : Nat) :
    Store × AddResult :=
  let ctx := ctxPattern context username
  let res := keyMatches master ctx st
  if res.length ≠ 0 then (st, .duplicate)
  else
    let entry : Entry :=
      { context := pw_encode master context
        username := pw_encode master username
        password := pw_encode master password
        note := pw_encode master (pyStrOpt note)
        date_added := now
        last_updated := now }
    let key := pw_encode master (composeAddr st.serial context username)
    ({ serial := st.serial + 1, entries := st.entries ++ [(key, entry)] }, .added key)

/-- `pws_remove`: probe, then ambiguous / not-found / delete `res[0]`. -/
def pws_remove (master : List Nat) (st : Store) (context : List Nat)
    (username : Option (List Nat)) : Store × RemoveResult :=
  let res := keyMatches master (probeOf context username) st
  if 1 < res.length then (st, .ambiguous)
  else if res.length = 0 then (st, .notFound)
  else ({ st with entries := st.entries.eraseP (fun kv => kv.1 == res.headD []) },
        .removed (res.headD []))

/-- `s[res[0]]`: the entry stored under key `k` (the call sites guarantee the
key is present; the default is never reached there). -/
def lookupEntry (l : List (List Nat × Entry)) (k : List Nat) : Entry :=
  ((l.find? (fun kv => kv.1 == k)).getD ([], default)).2

/-- `s[k] = e`: dict update of the binding of an existing key `k`. -/
def setEntry (l : List (List Nat × Entry)) (k : List Nat) (e : Entry) :
    List (List Nat × Entry) :=
  l.map (fun kv => if kv.1 == k then (k, e) else kv)

/-- The field mutation `update` performs on the matched entry: re-encode
exactly the truthy new fields (`if args.new_username: ...` etc., in source
order username, note, password; the new password comes from an external
prompt, the `--new_password` flag value itself is unused), then refresh
`last_updated`. -/
def updatedEntry (master : List Nat) (e0 : Entry)
    (new_username new_password new_note : Option (List Nat))
    (prompted : List Nat) (now : Nat) : Entry :=
  let e1 := if truthy new_username then
      { e0 with username := pw_encode master (new_username.getD []) } else e0
  let e2 := if truthy new_note then
      { e1 with note := pw_encode master (new_note.getD []) } else e1
  let e3 := if truthy new_password then
      { e2 with password := pw_encode master prompted } else e2
  { e3 with last_updated := now }

/-- `pws_update`: probe and disambiguate as in `remove`; on the unique match
apply `updatedEntry` to `s[res[0]]` and store it back. -/
def pws_update (master : List Nat) (st : Store) (context : List Nat)
    (username new_username new_password new_note : Option (List Nat))
    (prompted : List Nat) (now : Nat) : Store × UpdateResult :=
  let res := keyMatches master (probeOf context username) st
  if 1 < res.length then (st, .ambiguous)
  else if res.length = 0 then (st, .notFound)
  else
    let k := res.headD []
    let e4 := updatedEntry master (lookupEntry st.entries k)
      new_username new_password new_note prompted now
    ({ st with entries := setEntry st.entries k e4 }, .updated k)

/-- `pws_get`: the storage keys matching the `'_{context}_'` probe (the
source then pretty-prints the decoded entries, or reports no result). -/
def pws_get (master : List Nat) (st : Store) (context : List Nat) :
    List (List Nat) :=
  keyMatches master ([95] ++ context ++ [95]) st

/-- One store mutation request, for sequencing `add`/`remove` histories. -/
inductive Op
  | add (context username : List Nat) (note : Option (List Nat))
        (password : List Nat) (now : Nat)
  | remove (context : List Nat) (username : Option (List Nat))

/-- Outcome of one sequenced operation. -/
inductive OpResult
  | addRes (r : AddResult)
  | removeRes (r : RemoveResult)
deriving DecidableEq

/-- Execute one operation. -/
def stepOp (master : List Nat) (st : Store) : Op → Store × OpResult
  | .add c u n p t =>
      let r := pws_add master st c u n p t
      (r.1, .addRes r.2)
  | .remove c u =>
      let r := pws_remove master st c u
      (r.1, .removeRes r.2)

/-- Execute a sequence of operations, collecting the outcomes. -/
def runOps (master : List Nat) (st : Store) : List Op → Store × List OpResult
  | [] => (st, [])
  | op :: rest =>
      let s1 := stepOp master st op
      let s2 := runOps master s1.1 rest
      (s2.1, s1.2 :: s2.2)

/-- Whether an outcome is a successful `add`. -/
def isSuccessAdd : OpResult → Bool
  | .addRes (.added _) => true
  | _ => false

/-- Number of successful `add` outcomes in a history. -/
def countAdded (rs : List OpResult) : Nat := rs.countP isSuccessAdd

/-- `initialize_storge` on a fresh database: the serial counter is created
with value 1 and no entries exist. -/
def initialStore : Store := { serial := 1, entries := [] }

/-- The master-key derivation of `initialize_storge` (lines 253-259):
`current` is the global `MASTER` (`None` at session start); when it is unset
the sha256 hexdigest of the passphrase is taken unconditionally.  The hash
itself (`hashlib.sha256(...).hexdigest()`) is a Python-library function
external to this repository, abstracted as the parameter `hashHex`.
`none` as a result would model a rejected derivation; the code never
produces it. -/
def initMaster (hashHex : List Nat → List Nat) (current : Option (List Nat))
    (passphrase : List Nat) : Option (List Nat) :=
  match current with
  | some m => some m
  | none => some (hashHex passphrase)

/-- Concrete session key (`"k"`) for witnesses and counterexamples. -/
def demoMaster : List Nat := [107]

/-- A concrete stored entry: context `"a"`, username `"u"`, password `"p"`,
empty note, all encoded under `demoMaster`. -/
def demoEntryA : Entry :=
  { context := pw_encode demoMaster [97]
    username := pw_encode demoMaster [117]
    password := pw_encode demoMaster [112]
    note := pw_encode demoMaster []
    date_added := 0
    last_updated := 0 }

/-- Storage key of `demoEntryA` (serial 1, context `"a"`, username `"u"`). -/
def demoKeyA : List Nat := pw_encode demoMaster (composeAddr 1 [97] [117])

/-- Storage key for serial 2, context `"a"`, username `"v"`. -/
def demoKeyB : List Nat := pw_encode demoMaster (composeAddr 2 [97] [118])

/-- A one-entry store holding `demoEntryA`. -/
def demoStoreOne : Store := { serial := 2, entries := [(demoKeyA, demoEntryA)] }

/-- A two-entry store: same context `"a"`, usernames `"u"` and `"v"`. -/
def demoStoreTwo : Store :=
  { serial := 3, entries := [(demoKeyA, demoEntryA), (demoKeyB, default)] }

/-- Storage key for serial 1, context `"xaby"`, username `"ab"`. -/
def demoKeyX : List Nat := pw_encode demoMaster (composeAddr 1 [120, 97, 98, 121] [97, 98])

/-- A one-entry store whose entry has context `"xaby"` and username `"ab"`. -/
def demoStoreX : Store := { serial := 2, entries := [(demoKeyX, default)] }

/-- Storage key for serial 1, context `"ab"`, username `"u"`. -/
def demoKeyAB : List Nat := pw_encode demoMaster (composeAddr 1 [97, 98] [117])

/-- Storage key for serial 2, context `"xaby"`, username `"ab"`. -/
def demoKeyXY : List Nat :=
  pw_encode demoMaster (composeAddr 2 [120, 97, 98, 121] [97, 98])

/-- A store holding exactly the `"ab"` and `"xaby"` addresses, the latter
with username `"ab"`. -/
def demoStoreBoundary : Store :=
  { serial := 3, entries := [(demoKeyAB, default), (demoKeyXY, default)] }

end Pwstore

namespace Pwstore

theorem b64val_b64char (n : Nat) (h : n < 64) : b64val (b64char n) = n := by
  unfold b64char b64val
  split_ifs <;> omega

theorem b64char_ne_61 (n : Nat) : b64char n ≠ 61 := by
  unfold b64char
  split_ifs <;> omega

theorem b64_roundtrip (bs : List Nat) (h : ∀ b ∈ bs, b < 256) :
    b64decode (b64encode bs) = bs := by
  match bs with
  | [] => rfl
  | [a] =>
      have ha : a < 256 := h a (by simp)
      simp only [b64encode, b64decode, if_true]
      rw [b64val_b64char _ (by omega), b64val_b64char _ (by omega)]
      simp only [List.cons.injEq, and_true]
      omega
  | [a, b] =>
      have ha : a < 256 := h a (by simp)
      have hb : b < 256 := h b (by simp)
      simp only [b64encode, b64decode, if_true]
      rw [if_neg (b64char_ne_61 _), b64val_b64char _ (by omega),
        b64val_b64char _ (by omega), b64val_b64char _ (by omega)]
      simp only [List.cons.injEq, and_true]
      omega
  | a :: b :: c :: rest =>
      have ha : a < 256 := h a (by simp)
      have hb : b < 256 := h b (by simp)
      have hc : c < 256 := h c (by simp)
      have ih := b64_roundtrip rest (fun x hx => h x (by simp [hx]))
      simp only [b64encode, b64decode]
      rw [if_neg (b64char_ne_61 _), if_neg (b64char_ne_61 _),
        b64val_b64char _ (by omega), b64val_b64char _ (by omega),
        b64val_b64char _ (by omega), b64val_b64char _ (by omega), ih]
      simp only [List.cons.injEq, and_true]
      omega

theorem utf8Char_lt (c : Nat) (hc : c < 256) : ∀ x ∈ utf8Char c, x < 256 := by
  intro x hx
  unfold utf8Char at hx
  split at hx <;> simp at hx <;> omega

theorem utf8Encodes_lt (cs : List Nat) (h : ∀ c ∈ cs, c < 256) :
    ∀ x ∈ utf8Encodes cs, x < 256 := by
  induction cs with
  | nil => simp [utf8Encodes]
  | cons c rest ih =>
      intro x hx
      simp only [utf8Encodes, List.mem_append] at hx
      rcases hx with hx | hx
      · exact utf8Char_lt c (h c (by simp)) x hx
      · exact ih (fun y hy => h y (by simp [hy])) x hx

theorem utf8Decodes_cons_low (b : Nat) (l : List Nat) (hb : b < 128) :
    utf8Decodes (b :: l) = b :: utf8Decodes l := by
  cases l <;> simp [utf8Decodes, hb]

theorem utf8_roundtrip (cs : List Nat) (h : ∀ c ∈ cs, c < 256) :
    utf8Decodes (utf8Encodes cs) = cs := by
  induction cs with
  | nil => rfl
  | cons c rest ih =>
      have hc : c < 256 := h c (by simp)
      have ih' := ih (fun y hy => h y (by simp [hy]))
      by_cases hlow : c < 128
      · simp only [utf8Encodes, utf8Char, if_pos hlow, List.cons_append, List.nil_append]
        rw [utf8Decodes_cons_low _ _ hlow, ih']
      · simp only [utf8Encodes, utf8Char, if_neg hlow, List.cons_append, List.nil_append]
        show utf8Decodes (_ :: _ :: _) = _
        rw [utf8Decodes]
        rw [if_neg (by omega)]
        rw [ih']
        simp only [List.cons.injEq, and_true]
        omega

theorem cipherAddFrom_lt (key : List Nat) (i : Nat) (l : List Nat) :
    ∀ x ∈ cipherAddFrom key i l, x < 256 := by
  induction l generalizing i with
  | nil => simp [cipherAddFrom]
  | cons c rest ih =>
      intro x hx
      simp only [cipherAddFrom, List.mem_cons] at hx
      rcases hx with hx | hx
      · omega
      · exact ih (i + 1) x hx

theorem cipher_roundtrip (key : List Nat) (i : Nat) (l : List Nat)
    (h : ∀ c ∈ l, c < 256) :
    cipherSubFrom key i (cipherAddFrom key i l) = l := by
  induction l generalizing i with
  | nil => rfl
  | cons c rest ih =>
      have hc : c < 256 := h c (by simp)
      simp only [cipherAddFrom, cipherSubFrom, List.cons.injEq]
      refine ⟨?_, ih (i + 1) (fun y hy => h y (by simp [hy]))⟩
      omega

theorem pw_roundtrip (key s : List Nat) (hs : ∀ c ∈ s, c < 256) :
    pw_decode key (pw_encode key s) = s := by
  unfold pw_encode pw_decode
  rw [b64_roundtrip _ (utf8Encodes_lt _ (cipherAddFrom_lt key 0 s)),
    utf8_roundtrip _ (cipherAddFrom_lt key 0 s), cipher_roundtrip _ _ _ hs]

theorem leadsIn_iff (p s : List Nat) : leadsIn p s = true ↔ p <+: s := by
  induction p generalizing s with
  | nil =>
      constructor
      · intro
        exact ⟨s, rfl⟩
      · intro
        rfl
  | cons a as ih =>
      cases s with
      | nil =>
          simp only [leadsIn, Bool.false_eq_true, false_iff]
          intro ⟨t, ht⟩
          simp at ht
      | cons b bs =>
          simp only [leadsIn, Bool.and_eq_true, beq_iff_eq, ih]
          constructor
          · rintro ⟨rfl, t, rfl⟩
            exact ⟨t, rfl⟩
          · rintro ⟨t, ht⟩
            injection ht with h1 h2
            exact ⟨h1, t, h2⟩

theorem occursIn_iff (p s : List Nat) : occursIn p s = true ↔ p <:+: s := by
  induction s with
  | nil =>
      simp only [occursIn, leadsIn_iff]
      constructor
      · rintro ⟨t, ht⟩
        exact ⟨[], t, ht⟩
      · rintro ⟨u, t, ht⟩
        simp only [List.append_eq_nil] at ht
        obtain ⟨⟨hu, hp⟩, htl⟩ := ht
        exact ⟨[], by simp [hp]⟩
  | cons b t ih =>
      simp only [occursIn, Bool.or_eq_true, leadsIn_iff, ih]
      constructor
      · rintro (⟨u, hu⟩ | ⟨u, v, huv⟩)
        · exact ⟨[], u, by simpa using hu⟩
        · exact ⟨b :: u, v, by simp [huv]⟩
      · rintro ⟨u, v, huv⟩
        cases u with
        | nil =>
            left
            exact ⟨v, by simpa using huv⟩
        | cons c u' =>
            right
            injection huv with h1 h2
            exact ⟨u', v, h2⟩

theorem natStrAux_fuel (n f g : Nat) (hf : n < f) (hg : n < g) :
    natStrAux n f = natStrAux n g := by
  induction n using Nat.strong_induction_on generalizing f g with
  | _ n ih =>
      cases f with
      | zero => omega
      | succ f' =>
          cases g with
          | zero => omega
          | succ g' =>
              simp only [natStrAux]
              by_cases h10 : n < 10
              · simp [h10]
              · simp only [if_neg h10]
                rw [ih (n / 10) (by omega) f' g' (by omega) (by omega)]

theorem natStr_eq (n : Nat) :
    natStr n = if n < 10 then [48 + n] else natStr (n / 10) ++ [48 + n % 10] := by
  by_cases h10 : n < 10
  · simp [natStr, natStrAux, h10]
  · rw [if_neg h10]
    conv_lhs => rw [natStr, natStrAux]
    rw [if_neg h10, natStrAux_fuel (n / 10) n (n / 10 + 1) (by omega) (by omega)]
    rfl

theorem natStr_digits (n : Nat) : ∀ d ∈ natStr n, 48 ≤ d ∧ d ≤ 57 := by
  induction n using Nat.strong_induction_on with
  | _ n ih =>
      rw [natStr_eq]
      by_cases h10 : n < 10
      · simp only [if_pos h10, List.mem_singleton]
        rintro d rfl
        omega
      · simp only [if_neg h10, List.mem_append, List.mem_singleton]
        rintro d (hd | rfl)
        · exact ih (n / 10) (by omega) d hd
        · omega

theorem natStr_ne_nil (n : Nat) : natStr n ≠ [] := by
  rw [natStr_eq]
  split_ifs <;> simp

theorem natVal_natStr (n : Nat) : natVal (natStr n) = n := by
  induction n using Nat.strong_induction_on with
  | _ n ih =>
      rw [natStr_eq]
      by_cases h10 : n < 10
      · simp [if_pos h10, natVal]
      · simp only [if_neg h10]
        unfold natVal
        rw [List.foldl_append]
        have := ih (n / 10) (by omega)
        unfold natVal at this
        rw [this]
        simp only [List.foldl_cons, List.foldl_nil]
        omega

theorem natStr_inj (m n : Nat) (h : natStr m = natStr n) : m = n := by
  have := congrArg natVal h
  rwa [natVal_natStr, natVal_natStr] at this

theorem lowerStr_append (a b : List Nat) :
    lowerStr (a ++ b) = lowerStr a ++ lowerStr b := List.map_append lowerChar a b

theorem lowerStr_fixed (l : List Nat) (h : ∀ x ∈ l, lowerChar x = x) :
    lowerStr l = l := by
  induction l with
  | nil => rfl
  | cons a t ih =>
      simp only [lowerStr, List.map_cons]
      rw [h a (by simp)]
      have := ih (fun x hx => h x (by simp [hx]))
      simp only [lowerStr] at this
      rw [this]

theorem lowerChar_digit (d : Nat) (h1 : 48 ≤ d) (h2 : d ≤ 57) : lowerChar d = d := by
  unfold lowerChar
  rw [if_neg (by omega)]

theorem lowerStr_natStr (n : Nat) : lowerStr (natStr n) = natStr n :=
  lowerStr_fixed _ (fun x hx =>
    lowerChar_digit x (natStr_digits n x hx).1 (natStr_digits n x hx).2)

/-- Claim C1: for every printable (single-byte code point) string `s` and
every non-empty key `k`, `pw_decode k (pw_encode k s) = s`; the empty
plaintext encodes to the empty transport string and decodes back to empty. -/
theorem C1_codec_round_trip (key s : List Nat) (hk : key ≠ [])
    (hs : ∀ c ∈ s, c < 256) :
    pw_decode key (pw_encode key s) = s ∧
    pw_encode key [] = [] ∧
    pw_decode key (pw_encode key []) = [] :=
  ⟨pw_roundtrip key s hs, rfl, rfl⟩

/-- Witness for C1 at the key `"k"` and plaintext `"hey"`. -/
theorem C1_codec_round_trip_witness :
    pw_decode [107] (pw_encode [107] [104, 101, 121]) = [104, 101, 121] ∧
    pw_encode [107] [] = [] ∧
    pw_decode [107] (pw_encode [107] []) = [] :=
  C1_codec_round_trip [107] [104, 101, 121] (by decide) (by decide)

theorem pws_remove_serial (master : List Nat) (st : Store) (c : List Nat)
    (u : Option (List Nat)) : (pws_remove master st c u).1.serial = st.serial := by
  simp only [pws_remove]
  split_ifs <;> rfl

theorem pws_add_dup (master : List Nat) (st : Store) (c u : List Nat)
    (n : Option (List Nat)) (p : List Nat) (t : Nat)
    (h : (keyMatches master (ctxPattern c u) st).length ≠ 0) :
    pws_add master st c u n p t = (st, .duplicate) := by
  unfold pws_add
  rw [if_pos h]

theorem pws_add_ok (master : List Nat) (st : Store) (c u : List Nat)
    (n : Option (List Nat)) (p : List Nat) (t : Nat)
    (h : ¬(keyMatches master (ctxPattern c u) st).length ≠ 0) :
    pws_add master st c u n p t =
      ({ serial := st.serial + 1,
         entries := st.entries ++ [(pw_encode master (composeAddr st.serial c u),
           { context := pw_encode master c, username := pw_encode master u,
             password := pw_encode master p, note := pw_encode master (pyStrOpt n),
             date_added := t, last_updated := t })] },
       .added (pw_encode master (composeAddr st.serial c u))) := by
  unfold pws_add
  rw [if_neg h]

theorem stepOp_serial (master : List Nat) (st : Store) (op : Op) :
    (stepOp master st op).1.serial =
      st.serial + (if isSuccessAdd (stepOp master st op).2 then 1 else 0) := by
  cases op with
  | add c u n p t =>
      show (pws_add master st c u n p t).1.serial =
        st.serial + (if isSuccessAdd (.addRes (pws_add master st c u n p t).2) then 1 else 0)
      by_cases h : (keyMatches master (ctxPattern c u) st).length ≠ 0
      · rw [pws_add_dup master st c u n p t h]
        rfl
      · rw [pws_add_ok master st c u n p t h]
        rfl
  | remove c u =>
      show (pws_remove master st c u).1.serial =
        st.serial + (if isSuccessAdd (.removeRes (pws_remove master st c u).2) then 1 else 0)
      rw [pws_remove_serial]
      rfl

theorem runOps_serial (master : List Nat) (ops : List Op) :
    ∀ st : Store, (runOps master st ops).1.serial
      = st.serial + countAdded (runOps master st ops).2 := by
  induction ops with
  | nil =>
      intro st
      simp [runOps, countAdded, List.countP_nil]
  | cons op rest ih =>
      intro st
      have hfst : (runOps master st (op :: rest)).1
          = (runOps master (stepOp master st op).1 rest).1 := rfl
      have hsnd : (runOps master st (op :: rest)).2
          = (stepOp master st op).2 :: (runOps master (stepOp master st op).1 rest).2 := rfl
      rw [hfst, hsnd, ih (stepOp master st op).1]
      unfold countAdded
      rw [List.countP_cons]
      have := stepOp_serial master st op
      split_ifs at this ⊢ <;> omega

/-- Claim C2: starting from the freshly initialized store (serial 1), after
any interleaving of adds and removes the serial equals the number `N` of
successful adds plus one; a successful add advances it by exactly one and
uses the pre-add serial in the key it stores, a duplicate add and every
remove leave the serial (indeed, for duplicates, the whole store) unchanged,
so the serial is never decremented or reused. -/
theorem C2_serial_monotonic (master : List Nat) (ops : List Op) :
    (runOps master initialStore ops).1.serial
        = countAdded (runOps master initialStore ops).2 + 1 ∧
    (∀ st c u, (pws_remove master st c u).1.serial = st.serial) ∧
    (∀ st c u n p t k, (pws_add master st c u n p t).2 = .added k →
        (pws_add master st c u n p t).1.serial = st.serial + 1 ∧
        k = pw_encode master (composeAddr st.serial c u)) ∧
    (∀ st c u n p t, (pws_add master st c u n p t).2 = .duplicate →
        (pws_add master st c u n p t).1 = st) := by
  refine ⟨?_, fun st c u => pws_remove_serial master st c u, ?_, ?_⟩
  · rw [runOps_serial master ops initialStore]
    show 1 + _ = _ + 1
    omega
  · intro st c u n p t k hk
    by_cases h : (keyMatches master (ctxPattern c u) st).length ≠ 0
    · rw [pws_add_dup master st c u n p t h] at hk
      exact absurd hk (by simp)
    · rw [pws_add_ok master st c u n p t h] at hk ⊢
      simp only [AddResult.added.injEq] at hk
      exact ⟨rfl, hk.symm⟩
  · intro st c u n p t hd
    by_cases h : (keyMatches master (ctxPattern c u) st).length ≠ 0
    · rw [pws_add_dup master st c u n p t h]
    · rw [pws_add_ok master st c u n p t h] at hd
      exact absurd hd (by simp)

/-- Witness for C2: a concrete history (one successful add, one remove, one
duplicate add) on the fresh store, with the successful-add key equation
discharged at a concrete input. -/
theorem C2_serial_monotonic_witness :
    (runOps [107] initialStore
        [.add [97] [98] none [112] 0, .remove [99] none]).1.serial
      = countAdded (runOps [107] initialStore
        [.add [97] [98] none [112] 0, .remove [99] none]).2 + 1 ∧
    (pws_add [107] initialStore [97] [98] none [112] 0).1.serial
        = initialStore.serial + 1 :=
  ⟨(C2_serial_monotonic [107] [.add [97] [98] none [112] 0, .remove [99] none]).1,
   ((C2_serial_monotonic [107] []).2.2.1 initialStore [97] [98] none [112] 0
      (pw_encode [107] (composeAddr 1 [97] [98])) (by decide)).1⟩

theorem eraseP_key_subset (l : List (List Nat × Entry)) (k : List Nat) :
    ∀ kv ∈ l.eraseP (fun kv => kv.1 == k), kv ∈ l :=
  fun _ h => (List.eraseP_sublist l).subset h

theorem mem_eraseP_key_of_ne (l : List (List Nat × Entry)) (k : List Nat) :
    ∀ kv ∈ l, kv.1 ≠ k → kv ∈ l.eraseP (fun kv => kv.1 == k) := by
  induction l with
  | nil => simp
  | cons a t ih =>
      intro kv hkv hne
      by_cases ha : a.1 = k
      · rw [List.eraseP_cons, show (a.1 == k) = true by simpa using ha]
        rcases List.mem_cons.mp hkv with rfl | h
        · exact absurd ha hne
        · simpa using h
      · rw [List.eraseP_cons, show (a.1 == k) = false by simpa using ha]
        rcases List.mem_cons.mp hkv with rfl | h
        · simp
        · simp only [cond_false, List.mem_cons]
          exact Or.inr (ih kv h hne)

theorem not_mem_keys_eraseP_key (l : List (List Nat × Entry)) (k : List Nat)
    (hnd : (l.map Prod.fst).Nodup) :
    k ∉ (l.eraseP (fun kv => kv.1 == k)).map Prod.fst := by
  induction l with
  | nil => simp
  | cons a t ih =>
      simp only [List.map_cons, List.nodup_cons] at hnd
      by_cases ha : a.1 = k
      · rw [List.eraseP_cons, show (a.1 == k) = true by simpa using ha]
        simp only [cond_true]
        intro hk
        rcases List.mem_map.mp hk with ⟨kv, hkv, hfst⟩
        exact hnd.1 (ha ▸ hfst ▸ List.mem_map_of_mem Prod.fst hkv)
      · rw [List.eraseP_cons, show (a.1 == k) = false by simpa using ha]
        simp only [cond_false, List.map_cons, List.mem_cons]
        rintro (h | h)
        · exact ha h.symm
        · exact ih hnd.2 h

/-- Claim C3: `remove` with zero matches reports not-found and changes
nothing; with exactly one match it deletes exactly that key (the key is gone,
every other pair survives, nothing new appears, the serial is untouched);
with more than one match it reports the ambiguity and performs no mutation. -/
theorem C3_remove_cases (master context : List Nat) (username : Option (List Nat))
    (st : Store) (hnd : (st.entries.map Prod.fst).Nodup) :
    (keyMatches master (probeOf context username) st = [] →
        pws_remove master st context username = (st, .notFound)) ∧
    (∀ k, keyMatches master (probeOf context username) st = [k] →
        (pws_remove master st context username).2 = .removed k ∧
        (pws_remove master st context username).1.serial = st.serial ∧
        k ∉ ((pws_remove master st context username).1.entries.map Prod.fst) ∧
        (∀ kv ∈ st.entries, kv.1 ≠ k →
            kv ∈ (pws_remove master st context username).1.entries) ∧
        (∀ kv ∈ (pws_remove master st context username).1.entries, kv ∈ st.entries)) ∧
    (1 < (keyMatches master (probeOf context username) st).length →
        pws_remove master st context username = (st, .ambiguous)) := by
  refine ⟨?_, ?_, ?_⟩
  · intro h
    simp only [pws_remove, h]
    rfl
  · intro k h
    have hred : pws_remove master st context username =
        ({ st with entries := st.entries.eraseP (fun kv => kv.1 == k) }, .removed k) := by
      simp only [pws_remove, h, List.length_cons, List.length_nil, List.headD_cons]
      norm_num
    rw [hred]
    exact ⟨rfl, rfl, not_mem_keys_eraseP_key st.entries k hnd,
      mem_eraseP_key_of_ne st.entries k, eraseP_key_subset st.entries k⟩
  · intro h
    simp only [pws_remove, if_pos h]

/-- Witness for C3: the empty store reports not-found; a one-entry store
removes its sole match; a store with two entries for context `"a"` reports
the ambiguity and is left unchanged. -/
theorem C3_remove_cases_witness :
    pws_remove demoMaster initialStore [97] none = (initialStore, .notFound) ∧
    (pws_remove demoMaster demoStoreOne [97] none).2 = .removed demoKeyA ∧
    pws_remove demoMaster demoStoreTwo [97] none = (demoStoreTwo, .ambiguous) :=
  ⟨(C3_remove_cases demoMaster [97] none initialStore (by decide)).1 (by decide),
   ((C3_remove_cases demoMaster [97] none demoStoreOne (by decide)).2.1
      demoKeyA (by decide)).1,
   (C3_remove_cases demoMaster [97] none demoStoreTwo (by decide)).2.2 (by decide)⟩

theorem find?_key_eq (l : List (List Nat × Entry)) (k : List Nat) (e0 : Entry)
    (hnd : (l.map Prod.fst).Nodup) (hmem : (k, e0) ∈ l) :
    l.find? (fun kv => kv.1 == k) = some (k, e0) := by
  induction l with
  | nil => simp at hmem
  | cons a t ih =>
      simp only [List.map_cons, List.nodup_cons] at hnd
      rcases List.mem_cons.mp hmem with rfl | h
      · rw [List.find?_cons_of_pos _ (by simp)]
      · by_cases ha : a.1 = k
        · exact absurd (ha ▸ List.mem_map_of_mem Prod.fst h) hnd.1
        · rw [List.find?_cons_of_neg _ (by simpa using ha)]
          exact ih hnd.2 h

theorem mem_setEntry_self (l : List (List Nat × Entry)) (k : List Nat)
    (e0 e : Entry) (hmem : (k, e0) ∈ l) : (k, e) ∈ setEntry l k e := by
  have := List.mem_map_of_mem (fun kv => if kv.1 == k then (k, e) else kv) hmem
  simpa [setEntry] using this

theorem mem_setEntry_of_ne (l : List (List Nat × Entry)) (k : List Nat)
    (e : Entry) : ∀ kv ∈ l, kv.1 ≠ k → kv ∈ setEntry l k e := by
  intro kv hkv hne
  have := List.mem_map_of_mem (fun kv => if kv.1 == k then (k, e) else kv) hkv
  simpa [setEntry, beq_iff_eq, hne] using this

theorem mem_of_mem_setEntry_of_ne (l : List (List Nat × Entry)) (k : List Nat)
    (e : Entry) : ∀ kv ∈ setEntry l k e, kv.1 ≠ k → kv ∈ l := by
  intro kv hkv hne
  rcases List.mem_map.mp hkv with ⟨kv', hkv', himg⟩
  by_cases h : kv'.1 = k
  · rw [if_pos (by simpa using h)] at himg
    exact absurd (by rw [← himg]) hne
  · rw [if_neg (by simpa using h)] at himg
    exact himg ▸ hkv'

theorem updatedEntry_date_added (master : List Nat) (e0 : Entry)
    (nu np nn : Option (List Nat)) (pw : List Nat) (now : Nat) :
    (updatedEntry master e0 nu np nn pw now).date_added = e0.date_added := by
  unfold updatedEntry
  split_ifs <;> rfl

theorem updatedEntry_context (master : List Nat) (e0 : Entry)
    (nu np nn : Option (List Nat)) (pw : List Nat) (now : Nat) :
    (updatedEntry master e0 nu np nn pw now).context = e0.context := by
  unfold updatedEntry
  split_ifs <;> rfl

theorem updatedEntry_last_updated (master : List Nat) (e0 : Entry)
    (nu np nn : Option (List Nat)) (pw : List Nat) (now : Nat) :
    (updatedEntry master e0 nu np nn pw now).last_updated = now := by
  unfold updatedEntry
  split_ifs <;> rfl

theorem updatedEntry_username (master : List Nat) (e0 : Entry)
    (nu np nn : Option (List Nat)) (pw : List Nat) (now : Nat) :
    (truthy nu = true →
      (updatedEntry master e0 nu np nn pw now).username
        = pw_encode master (nu.getD [])) ∧
    (truthy nu = false →
      (updatedEntry master e0 nu np nn pw now).username = e0.username) := by
  constructor <;> intro h <;> unfold updatedEntry <;> rw [h] <;> split_ifs <;> simp_all

theorem updatedEntry_note (master : List Nat) (e0 : Entry)
    (nu np nn : Option (List Nat)) (pw : List Nat) (now : Nat) :
    (truthy nn = true →
      (updatedEntry master e0 nu np nn pw now).note
        = pw_encode master (nn.getD [])) ∧
    (truthy nn = false →
      (updatedEntry master e0 nu np nn pw now).note = e0.note) := by
  constructor <;> intro h <;> unfold updatedEntry <;> rw [h] <;> split_ifs <;> simp_all

theorem updatedEntry_password (master : List Nat) (e0 : Entry)
    (nu np nn : Option (List Nat)) (pw : List Nat) (now : Nat) :
    (truthy np = true →
      (updatedEntry master e0 nu np nn pw now).password = pw_encode master pw) ∧
    (truthy np = false →
      (updatedEntry master e0 nu np nn pw now).password = e0.password) := by
  constructor <;> intro h <;> unfold updatedEntry <;> rw [h] <;> split_ifs <;> simp_all

/-- Claim C4 (amended): on a unique match, `update` re-encodes and replaces
exactly the new fields supplied with a truthy (non-empty) value — a field
supplied as the empty string is left untouched, like an unsupplied one —
refreshes `last_updated` to the current time, never changes `date_added` or
the stored context bytes, keeps every untouched field's encoded bytes, and
leaves every other entry and the serial unchanged. -/
theorem C4_update_frame (master : List Nat) (st : Store) (context : List Nat)
    (username new_username new_password new_note : Option (List Nat))
    (prompted : List Nat) (now : Nat) (k : List Nat) (e0 : Entry)
    (hnd : (st.entries.map Prod.fst).Nodup)
    (hres : keyMatches master (probeOf context username) st = [k])
    (hmem : (k, e0) ∈ st.entries) :
    (pws_update master st context username new_username new_password new_note
        prompted now).2 = .updated k ∧
    (pws_update master st context username new_username new_password new_note
        prompted now).1.serial = st.serial ∧
    (∃ e1, (k, e1) ∈ (pws_update master st context username new_username
          new_password new_note prompted now).1.entries ∧
      e1.date_added = e0.date_added ∧
      e1.last_updated = now ∧
      e1.context = e0.context ∧
      (truthy new_username = true →
          e1.username = pw_encode master (new_username.getD [])) ∧
      (truthy new_username = false → e1.username = e0.username) ∧
      (truthy new_note = true → e1.note = pw_encode master (new_note.getD [])) ∧
      (truthy new_note = false → e1.note = e0.note) ∧
      (truthy new_password = true → e1.password = pw_encode master prompted) ∧
      (truthy new_password = false → e1.password = e0.password)) ∧
    (∀ kv ∈ st.entries, kv.1 ≠ k →
        kv ∈ (pws_update master st context username new_username new_password
          new_note prompted now).1.entries) ∧
    (∀ kv ∈ (pws_update master st context username new_username new_password
        new_note prompted now).1.entries, kv.1 ≠ k → kv ∈ st.entries) := by
  have hlook : lookupEntry st.entries k = e0 := by
    unfold lookupEntry
    rw [find?_key_eq st.entries k e0 hnd hmem]
    rfl
  have hred : pws_update master st context username new_username new_password
      new_note prompted now =
      ({ st with entries := setEntry st.entries k (updatedEntry master e0
          new_username new_password new_note prompted now) }, .updated k) := by
    simp only [pws_update, hres, List.length_cons, List.length_nil,
      List.headD_cons, hlook]
    norm_num
  rw [hred]
  exact ⟨rfl, rfl,
    ⟨updatedEntry master e0 new_username new_password new_note prompted now,
      mem_setEntry_self st.entries k e0 _ hmem,
      updatedEntry_date_added master e0 new_username new_password new_note
        prompted now,
      updatedEntry_last_updated master e0 new_username new_password new_note
        prompted now,
      updatedEntry_context master e0 new_username new_password new_note
        prompted now,
      (updatedEntry_username master e0 new_username new_password new_note
        prompted now).1,
      (updatedEntry_username master e0 new_username new_password new_note
        prompted now).2,
      (updatedEntry_note master e0 new_username new_password new_note
        prompted now).1,
      (updatedEntry_note master e0 new_username new_password new_note
        prompted now).2,
      (updatedEntry_password master e0 new_username new_password new_note
        prompted now).1,
      (updatedEntry_password master e0 new_username new_password new_note
        prompted now).2⟩,
    mem_setEntry_of_ne st.entries k _,
    mem_of_mem_setEntry_of_ne st.entries k _⟩

/-- Witness for C4 (amended): updating the note of the unique `"a"` entry in
the one-entry store succeeds and leaves the serial unchanged. -/
theorem C4_update_frame_witness :
    (pws_update demoMaster demoStoreOne [97] none none none (some [110])
        [] 7).2 = .updated demoKeyA ∧
    (pws_update demoMaster demoStoreOne [97] none none none (some [110])
        [] 7).1.serial = demoStoreOne.serial :=
  ⟨(C4_update_frame demoMaster demoStoreOne [97] none none none (some [110])
      [] 7 demoKeyA demoEntryA (by decide) (by decide) (by decide)).1,
   (C4_update_frame demoMaster demoStoreOne [97] none none none (some [110])
      [] 7 demoKeyA demoEntryA (by decide) (by decide) (by decide)).2.1⟩

/-- Counterexample to C4 as stated: `--new_username` explicitly supplied as
the empty string is a supplied field, but the stored entry keeps its old
encoded username bytes instead of the re-encoded empty string (Python
truthiness skips the update), so "only the fields explicitly supplied are
re-encoded and replaced" fails in its "supplied, hence replaced" reading. -/
theorem C4_update_counterexample :
    (((pws_update demoMaster demoStoreOne [97] none (some []) none none
        [] 5).1.entries.headD ([], default)).2).username
      = pw_encode demoMaster [117] ∧
    pw_encode demoMaster [117] ≠ pw_encode demoMaster [] := by
  constructor
  · decide
  · decide

/-- Claim C8 (code evaluation): key derivation does not fail closed.  With no
session key yet set, every passphrase — the empty one included — yields a
derived MasterKey (`some (hashHex passphrase)`), and the session proceeds
with it; no rejection path exists in `initialize_storge`. -/
theorem C8_empty_passphrase_accepted (hashHex : List Nat → List Nat) :
    initMaster hashHex none [] = some (hashHex []) ∧
    ∀ passphrase, initMaster hashHex none passphrase ≠ none :=
  ⟨rfl, fun _ h => Option.noConfusion h⟩

/-- Witness for C8 at a concrete stand-in hash function. -/
theorem C8_empty_passphrase_accepted_witness :
    initMaster (fun _ => [101]) none [] = some [101] ∧
    initMaster (fun _ => [101]) none [] ≠ none :=
  ⟨(C8_empty_passphrase_accepted (fun _ => [101])).1,
   (C8_empty_passphrase_accepted (fun _ => [101])).2 []⟩

/-- Claim C9 (code evaluation): an `add` without a note stores
`pw_encode(MASTER, str(None))`, so the persisted note decodes to the
four-character string `"None"`, not to the empty string the claim (and the
`Entry` class's own empty-string default) prescribes. -/
theorem C9_absent_note_stored_as_None :
    pw_decode demoMaster
        (((pws_add demoMaster initialStore [99] [117] none [112] 0).1.entries.headD
            ([], default)).2.note) = [78, 111, 110, 101] ∧
    ([78, 111, 110, 101] : List Nat) ≠ [] := by
  constructor
  · decide
  · decide

/-- Claim C10: the context-only probe is the substring `'_<context>_'`
checked case-insensitively against the entire decoded address, and it can
match inside the username field: probing context `"ab"` matches the entry
whose stored context is `"xaby"` but whose stored username is `"ab"`, for
`get` and likewise for `remove`. -/
theorem C10_probe_matches_username_field :
    (∀ master st c, pws_get master st c
        = keyMatches master ([95] ++ c ++ [95]) st) ∧
    pws_get demoMaster demoStoreX [97, 98] = [demoKeyX] ∧
    (pws_remove demoMaster demoStoreX [97, 98] none).2 = .removed demoKeyX ∧
    ([120, 97, 98, 121] : List Nat) ≠ [97, 98] := by
  refine ⟨fun master st c => rfl, by decide, by decide, by decide⟩

theorem append_delim_inj (a1 : List Nat) : ∀ (a2 : List Nat) (r1 r2 : List Nat),
    95 ∉ a1 → 95 ∉ a2 → a1 ++ 95 :: r1 = a2 ++ 95 :: r2 → a1 = a2 ∧ r1 = r2 := by
  induction a1 with
  | nil =>
      intro a2 r1 r2 h1 h2 h
      cases a2 with
      | nil => simpa using h
      | cons b t2 =>
          simp only [List.nil_append, List.cons_append, List.cons.injEq] at h
          exact absurd (h.1 ▸ List.mem_cons_self b t2) (fun hm => h2 hm)
  | cons b t1 ih =>
      intro a2 r1 r2 h1 h2 h
      cases a2 with
      | nil =>
          simp only [List.cons_append, List.nil_append, List.cons.injEq] at h
          exact absurd (h.1 ▸ List.mem_cons_self b t1) (fun hm => h1 hm)
      | cons c t2 =>
          simp only [List.cons_append, List.cons.injEq] at h
          obtain ⟨rfl, h'⟩ := h
          have := ih t2 r1 r2 (fun hm => h1 (List.mem_cons_of_mem _ hm))
            (fun hm => h2 (List.mem_cons_of_mem _ hm)) h'
          exact ⟨by rw [this.1], this.2⟩

theorem natStr_no95 (n : Nat) : 95 ∉ natStr n := by
  intro h
  have := natStr_digits n 95 h
  omega

/-- Claim C6: distinct `(serial, context, username)` triples with positive
serials and delimiter-free context/username always compose distinct
plaintext storage addresses. -/
theorem C6_address_unique (s1 s2 : Nat) (c1 c2 u1 u2 : List Nat)
    (hs1 : 0 < s1) (hs2 : 0 < s2)
    (hc1 : 95 ∉ c1) (hc2 : 95 ∉ c2) (hu1 : 95 ∉ u1) (hu2 : 95 ∉ u2)
    (hne : (s1, c1, u1) ≠ (s2, c2, u2)) :
    composeAddr s1 c1 u1 ≠ composeAddr s2 c2 u2 := by
  intro h
  apply hne
  have hform : ∀ (s : Nat) (c u : List Nat), composeAddr s c u
      = natStr s ++ 95 :: (95 :: (c ++ 95 :: (u ++ [95, 95, 95, 95]))) := by
    intro s c u
    simp [composeAddr, ctxPattern]
  rw [hform, hform] at h
  obtain ⟨hsd, hrest⟩ := append_delim_inj (natStr s1) (natStr s2) _ _
    (natStr_no95 s1) (natStr_no95 s2) h
  have hs : s1 = s2 := natStr_inj s1 s2 hsd
  simp only [List.cons.injEq, true_and] at hrest
  obtain ⟨hcd, hurest⟩ := append_delim_inj c1 c2 _ _ hc1 hc2 hrest
  have hu : u1 = u2 := by
    have := congrArg List.reverse hurest
    simp only [List.reverse_append] at this
    have h2 := congrArg List.reverse this
    simpa using h2
  simp [hs, hcd, hu]

/-- Witness for C6: two concrete triples differing only in the serial. -/
theorem C6_address_unique_witness :
    composeAddr 1 [97] [98] ≠ composeAddr 2 [97] [98] :=
  C6_address_unique 1 2 [97] [97] [98] [98] (by decide) (by decide) (by decide)
    (by decide) (by decide) (by decide) (by decide)

theorem cipherSubAdd_ne (k1 k2 : List Nat) : ∀ (l : List Nat) (i : Nat),
    (∀ c ∈ l, c < 256) →
    (∃ j, j < l.length ∧ keyAt k1 (i + j) % 256 ≠ keyAt k2 (i + j) % 256) →
    cipherSubFrom k2 i (cipherAddFrom k1 i l) ≠ l := by
  intro l
  induction l with
  | nil =>
      rintro i h ⟨j, hj, hne⟩
      simp at hj
  | cons c rest ih =>
      rintro i hlt ⟨j, hj, hkey⟩
      simp only [cipherAddFrom, cipherSubFrom]
      intro heq
      injection heq with h1 h2
      cases j with
      | zero =>
          have hc : c < 256 := hlt c (by simp)
          simp only [Nat.add_zero] at hkey
          omega
      | succ j' =>
          have hidx : i + 1 + j' = i + (j' + 1) := by omega
          refine ih (i + 1) (fun y hy => hlt y (by simp [hy])) ⟨j', ?_, ?_⟩ h2
          · simpa [Nat.succ_lt_succ_iff] using hj
          · rw [hidx]
            exact hkey

theorem pw_decode_encode_keys (k1 k2 s : List Nat) (hs : ∀ c ∈ s, c < 256) :
    pw_decode k2 (pw_encode k1 s) = cipherSubFrom k2 0 (cipherAddFrom k1 0 s) := by
  unfold pw_encode pw_decode
  rw [b64_roundtrip _ (utf8Encodes_lt _ (cipherAddFrom_lt k1 0 s)),
    utf8_roundtrip _ (cipherAddFrom_lt k1 0 s)]

/-- Claim C7 (amended): decoding with a wrong key fails to reproduce the
plaintext whenever the two keys' repeating key streams differ modulo 256 at
some position inside the plaintext; distinct keys whose cyclic streams
coincide (such as `"a"` and `"aa"`) do silently reproduce it. -/
theorem C7_key_sensitivity (k1 k2 s : List Nat) (hk1 : k1 ≠ []) (hk2 : k2 ≠ [])
    (hs : ∀ c ∈ s, c < 256)
    (hdiff : ∃ j, j < s.length ∧ keyAt k1 j % 256 ≠ keyAt k2 j % 256) :
    pw_decode k2 (pw_encode k1 s) ≠ s := by
  rw [pw_decode_encode_keys k1 k2 s hs]
  refine cipherSubAdd_ne k1 k2 s 0 hs ?_
  simpa using hdiff

/-- Witness for C7 (amended) at keys `"a"`, `"b"` and plaintext `"hi"`. -/
theorem C7_key_sensitivity_witness :
    pw_decode [98] (pw_encode [97] [104, 105]) ≠ [104, 105] :=
  C7_key_sensitivity [97] [98] [104, 105] (by decide) (by decide) (by decide)
    ⟨0, by decide⟩

/-- Counterexample to C7 as stated: `"a"` and `"aa"` are distinct non-empty
keys and `"hello"` a non-trivial plaintext, yet decoding with the wrong key
reproduces the original exactly (the repeating key streams coincide). -/
theorem C7_key_sensitivity_counterexample :
    ([97] : List Nat) ≠ [97, 97] ∧
    ([104, 101, 108, 108, 111] : List Nat) ≠ [] ∧
    pw_decode [97, 97] (pw_encode [97] [104, 101, 108, 108, 111])
      = [104, 101, 108, 108, 111] := by
  refine ⟨by decide, by decide, by decide⟩

theorem pat4_iff (p1 p2 p3 p4 : Nat) (s : List Nat) :
    [p1, p2, p3, p4] <:+: s ↔
      ∃ i, s[i]? = some p1 ∧ s[i + 1]? = some p2 ∧
        s[i + 2]? = some p3 ∧ s[i + 3]? = some p4 := by
  constructor
  · rintro ⟨u, v, rfl⟩
    have hlen : (u ++ [p1, p2, p3, p4]).length = u.length + 4 := by
      rw [List.length_append]
      rfl
    refine ⟨u.length, ?_, ?_, ?_, ?_⟩
    · rw [List.getElem?_append, if_pos (by omega), List.getElem?_append,
        if_neg (by omega), Nat.sub_self]
      rfl
    · rw [List.getElem?_append, if_pos (by omega), List.getElem?_append,
        if_neg (by omega), Nat.add_sub_cancel_left]
      rfl
    · rw [List.getElem?_append, if_pos (by omega), List.getElem?_append,
        if_neg (by omega), Nat.add_sub_cancel_left]
      rfl
    · rw [List.getElem?_append, if_pos (by omega), List.getElem?_append,
        if_neg (by omega), Nat.add_sub_cancel_left]
      rfl
  · rintro ⟨i, h0, h1, h2, h3⟩
    rw [List.getElem?_eq_some] at h0 h1 h2 h3
    obtain ⟨hb0, hv0⟩ := h0
    obtain ⟨hb1, hv1⟩ := h1
    obtain ⟨hb2, hv2⟩ := h2
    obtain ⟨hb3, hv3⟩ := h3
    refine ⟨s.take i, s.drop (i + 4), ?_⟩
    have hd0 : s.drop i = p1 :: s.drop (i + 1) := by
      rw [List.drop_eq_getElem_cons hb0, hv0]
    have hd1 : s.drop (i + 1) = p2 :: s.drop (i + 2) := by
      rw [List.drop_eq_getElem_cons hb1, hv1]
    have hd2 : s.drop (i + 2) = p3 :: s.drop (i + 3) := by
      rw [List.drop_eq_getElem_cons hb2, hv2]
    have hd3 : s.drop (i + 3) = p4 :: s.drop (i + 4) := by
      rw [List.drop_eq_getElem_cons hb3, hv3]
    calc (s.take i ++ [p1, p2, p3, p4]) ++ s.drop (i + 4)
        = s.take i ++ s.drop i := by
          rw [hd0, hd1, hd2, hd3]
          simp
      _ = s := List.take_append_drop i s

theorem xaby_addr_get (d v : List Nat) (j : Nat) :
    (d ++ ([95, 95, 120, 97, 98, 121, 95] ++ (v ++ [95, 95, 95, 95])))[j]? =
      if j < d.length then d[j]?
      else if j - d.length < 7 then [95, 95, 120, 97, 98, 121, 95][j - d.length]?
      else if j - d.length - 7 < v.length then v[j - d.length - 7]?
      else [95, 95, 95, 95][j - d.length - 7 - v.length]? := by
  rw [List.getElem?_append]
  by_cases h1 : j < d.length
  · rw [if_pos h1, if_pos h1]
  · rw [if_neg h1, if_neg h1, List.getElem?_append,
      show ([95, 95, 120, 97, 98, 121, 95] : List Nat).length = 7 from rfl]
    by_cases h2 : j - d.length < 7
    · rw [if_pos h2, if_pos h2]
    · rw [if_neg h2, if_neg h2, List.getElem?_append]

theorem tail95 (j c : Nat) (h : ([95, 95, 95, 95] : List Nat)[j]? = some c) :
    c = 95 := by
  have h4 : j = 0 ∨ j = 1 ∨ j = 2 ∨ j = 3 ∨ 4 ≤ j := by omega
  rcases h4 with rfl | rfl | rfl | rfl | hj
  · exact (Option.some.inj h).symm
  · exact (Option.some.inj h).symm
  · exact (Option.some.inj h).symm
  · exact (Option.some.inj h).symm
  · rw [List.getElem?_eq_none (by simpa using hj)] at h
    exact Option.noConfusion h

theorem pat_not_in_xaby (d v : List Nat) (hd : ∀ x ∈ d, 48 ≤ x ∧ x ≤ 57)
    (hv : ¬([95, 97, 98, 95] <:+: (95 :: (v ++ [95])))) :
    ¬([95, 97, 98, 95] <:+:
        (d ++ ([95, 95, 120, 97, 98, 121, 95] ++ (v ++ [95, 95, 95, 95])))) := by
  intro hinf
  rw [pat4_iff] at hinf
  obtain ⟨i, h0, h1, h2, h3⟩ := hinf
  rw [xaby_addr_get] at h0 h1 h2 h3
  by_cases c1 : i + 1 < d.length
  · rw [if_pos c1] at h1
    rw [List.getElem?_eq_some] at h1
    obtain ⟨hlt, hval⟩ := h1
    have h97 := hd _ (hval ▸ List.getElem_mem hlt)
    omega
  · rw [if_neg c1] at h1
    by_cases c2 : i + 1 - d.length < 7
    · rw [if_pos c2] at h1
      have hcases : i + 1 - d.length = 0 ∨ i + 1 - d.length = 1 ∨
          i + 1 - d.length = 2 ∨ i + 1 - d.length = 3 ∨ i + 1 - d.length = 4 ∨
          i + 1 - d.length = 5 ∨ i + 1 - d.length = 6 := by omega
      rcases hcases with hc | hc | hc | hc | hc | hc | hc
      · rw [hc] at h1
        exact absurd h1 (by decide)
      · rw [hc] at h1
        exact absurd h1 (by decide)
      · rw [hc] at h1
        exact absurd h1 (by decide)
      · rw [if_neg (by omega), if_pos (by omega),
          show i - d.length = 2 from by omega] at h0
        exact absurd h0 (by decide)
      · rw [hc] at h1
        exact absurd h1 (by decide)
      · rw [hc] at h1
        exact absurd h1 (by decide)
      · rw [hc] at h1
        exact absurd h1 (by decide)
    · rw [if_neg c2] at h1
      by_cases c3 : i + 1 - d.length - 7 < v.length
      · rw [if_pos c3] at h1
        set j := i + 1 - d.length - 7 with hj
        have hh2 : v[j + 1]? = some 98 ∧ j + 1 < v.length := by
          by_cases c4 : i + 2 - d.length - 7 < v.length
          · rw [if_neg (by omega), if_neg (by omega), if_pos c4,
              show i + 2 - d.length - 7 = j + 1 from by omega] at h2
            exact ⟨h2, by omega⟩
          · rw [if_neg (by omega), if_neg (by omega), if_neg c4] at h2
            exact absurd (tail95 _ _ h2) (by decide)
        have hb3 : (v ++ [95])[j + 2]? = some 95 := by
          rw [List.getElem?_append]
          by_cases c5 : j + 2 < v.length
          · rw [if_pos c5]
            rw [if_neg (by omega), if_neg (by omega), if_pos (by omega),
              show i + 3 - d.length - 7 = j + 2 from by omega] at h3
            exact h3
          · rw [if_neg c5, show j + 2 - v.length = 0 from by omega]
            rfl
        have hb0 : (95 :: (v ++ [95]))[j]? = some 95 := by
          rcases Nat.eq_zero_or_pos j with hz | hj0
          · rw [hz, List.getElem?_cons_zero]
          · rw [if_neg (by omega), if_neg (by omega), if_pos (by omega),
              show i - d.length - 7 = j - 1 from by omega] at h0
            rw [show j = (j - 1) + 1 from by omega, List.getElem?_cons_succ,
              List.getElem?_append, if_pos (by omega)]
            exact h0
        have hb1 : (95 :: (v ++ [95]))[j + 1]? = some 97 := by
          rw [List.getElem?_cons_succ, List.getElem?_append, if_pos (by omega)]
          exact h1
        have hb2 : (95 :: (v ++ [95]))[j + 2]? = some 98 := by
          rw [show j + 2 = (j + 1) + 1 from rfl, List.getElem?_cons_succ,
            List.getElem?_append, if_pos (by omega)]
          exact hh2.1
        have hb3' : (95 :: (v ++ [95]))[j + 3]? = some 95 := by
          rw [show j + 3 = (j + 2) + 1 from rfl, List.getElem?_cons_succ]
          exact hb3
        exact hv ((pat4_iff 95 97 98 95 _).2 ⟨j, hb0, hb1, hb2, hb3'⟩)
      · rw [if_neg c3] at h1
        exact absurd (tail95 _ _ h1) (by decide)

theorem occursIn_eq_false_of_not (p s : List Nat) (h : ¬p <:+: s) :
    occursIn p s = false := by
  rw [Bool.eq_false_iff]
  intro ht
  exact h ((occursIn_iff p s).1 ht)

theorem not_of_occursIn_eq_false (p s : List Nat) (h : occursIn p s = false) :
    ¬p <:+: s := by
  intro hin
  rw [(occursIn_iff p s).2 hin] at h
  exact Bool.noConfusion h

theorem composeAddr_lt (s : Nat) (c u : List Nat) (hc : ∀ x ∈ c, x < 256)
    (hu : ∀ x ∈ u, x < 256) : ∀ x ∈ composeAddr s c u, x < 256 := by
  intro x hx
  have hdig := natStr_digits s
  simp only [composeAddr, ctxPattern, List.append_assoc, List.cons_append,
    List.nil_append, List.mem_append, List.mem_cons, List.not_mem_nil,
    or_false] at hx
  rcases hx with hx | hx
  · have := hdig x hx
    omega
  · rcases hx with rfl | hx
    · omega
    · rcases hx with rfl | hx
      · omega
      · rcases hx with hx | hx
        · exact hc x hx
        · rcases hx with rfl | hx
          · omega
          · rcases hx with hx | hx
            · exact hu x hx
            · rcases hx with rfl | (rfl | (rfl | rfl)) <;> omega

theorem lowerStr_ab_addr (s : Nat) (u : List Nat) :
    lowerStr (composeAddr s [97, 98] u)
      = (natStr s ++ [95]) ++ ([95, 97, 98, 95] ++ (lowerStr u ++ [95, 95, 95, 95])) := by
  simp only [composeAddr, ctxPattern, lowerStr_append, lowerStr_natStr,
    show lowerStr [95] = [95] from rfl,
    show lowerStr [97, 98] = [97, 98] from rfl,
    show lowerStr [95, 95] = [95, 95] from rfl]
  simp [List.append_assoc]

theorem lowerStr_xaby_addr (s : Nat) (u : List Nat) :
    lowerStr (composeAddr s [120, 97, 98, 121] u)
      = natStr s ++ ([95, 95, 120, 97, 98, 121, 95] ++ (lowerStr u ++ [95, 95, 95, 95])) := by
  simp only [composeAddr, ctxPattern, lowerStr_append, lowerStr_natStr,
    show lowerStr [95] = [95] from rfl,
    show lowerStr [120, 97, 98, 121] = [120, 97, 98, 121] from rfl,
    show lowerStr [95, 95] = [95, 95] from rfl]
  simp [List.append_assoc]

theorem pat_in_ab_addr (s : Nat) (u : List Nat) :
    occursIn (lowerStr ([95] ++ [97, 98] ++ [95]))
      (lowerStr (composeAddr s [97, 98] u)) = true := by
  rw [occursIn_iff, lowerStr_ab_addr,
    show lowerStr ([95] ++ [97, 98] ++ [95]) = [95, 97, 98, 95] from rfl]
  exact ⟨natStr s ++ [95], lowerStr u ++ [95, 95, 95, 95], by simp [List.append_assoc]⟩

theorem pat_not_in_xaby_addr (s : Nat) (u : List Nat)
    (hguard : occursIn [95, 97, 98, 95] (95 :: (lowerStr u ++ [95])) = false) :
    occursIn (lowerStr ([95] ++ [97, 98] ++ [95]))
      (lowerStr (composeAddr s [120, 97, 98, 121] u)) = false := by
  rw [lowerStr_xaby_addr,
    show lowerStr ([95] ++ [97, 98] ++ [95]) = [95, 97, 98, 95] from rfl]
  apply occursIn_eq_false_of_not
  exact pat_not_in_xaby (natStr s) (lowerStr u) (natStr_digits s)
    (not_of_occursIn_eq_false _ _ hguard)

/-- Claim C5 (amended): in a store holding exactly the composed addresses
for contexts `"ab"` and `"xaby"`, probing context `"ab"` returns exactly the
`"ab"` entry's storage key — provided the `"xaby"` entry's delimiter-framed
username field `'_' + username + '_'` does not itself contain the probe
substring `'_ab_'` (lowercased); a username such as `"ab"` does contain it
and then the probe also matches the `"xaby"` key, inside the username
field. -/
theorem C5_matcher_boundary (master u1 u2 : List Nat) (s1 s2 sn : Nat)
    (e1 e2 : Entry)
    (hu1 : ∀ c ∈ u1, c < 256) (hu2 : ∀ c ∈ u2, c < 256)
    (hguard : occursIn [95, 97, 98, 95] (95 :: (lowerStr u2 ++ [95])) = false) :
    pws_get master
        { serial := sn,
          entries := [(pw_encode master (composeAddr s1 [97, 98] u1), e1),
                      (pw_encode master (composeAddr s2 [120, 97, 98, 121] u2), e2)] }
        [97, 98]
      = [pw_encode master (composeAddr s1 [97, 98] u1)] := by
  have hdec1 : pw_decode master (pw_encode master (composeAddr s1 [97, 98] u1))
      = composeAddr s1 [97, 98] u1 :=
    pw_roundtrip master _ (composeAddr_lt s1 [97, 98] u1 (by decide) hu1)
  have hdec2 : pw_decode master
        (pw_encode master (composeAddr s2 [120, 97, 98, 121] u2))
      = composeAddr s2 [120, 97, 98, 121] u2 :=
    pw_roundtrip master _ (composeAddr_lt s2 [120, 97, 98, 121] u2 (by decide) hu2)
  unfold pws_get keyMatches
  simp only [List.map_cons, List.map_nil, List.filter_cons, List.filter_nil,
    hdec1, hdec2, pat_in_ab_addr s1 u1, pat_not_in_xaby_addr s2 u2 hguard]
  simp

/-- Witness for C5 (amended) with usernames `"u"` and `"v"`. -/
theorem C5_matcher_boundary_witness :
    pws_get demoMaster
        { serial := 3,
          entries := [(pw_encode demoMaster (composeAddr 1 [97, 98] [117]), default),
                      (pw_encode demoMaster (composeAddr 2 [120, 97, 98, 121] [118]),
                        default)] }
        [97, 98]
      = [pw_encode demoMaster (composeAddr 1 [97, 98] [117])] :=
  C5_matcher_boundary demoMaster [117] [118] 1 2 3 default default
    (by decide) (by decide) (by decide)

/-- Counterexample to C5 as stated: with usernames `"u"` (for `"ab"`) and
`"ab"` (for `"xaby"`), probing `"ab"` returns the `"xaby"` entry's storage
key as well — the claim's universal quantification over usernames fails. -/
theorem C5_matcher_boundary_counterexample :
    pws_get demoMaster demoStoreBoundary [97, 98] = [demoKeyAB, demoKeyXY] ∧
    demoKeyXY ≠ demoKeyAB := by
  constructor
  · decide
  · decide

end Pwstore
